import Mathlib

/-
Verification of the castdiff AST traversal engine and codec.

The development shallowly embeds the Go sources:
  * cc/expr.go   : the Expr node model, ExprOp enumeration, GetChildren,
                   the generic Walk/walk traversal, Preorder/Postorder,
                   and ExprOp.String.
  * syntax/ast/cast_expr.go : the kind-tagged CastExpr codec.

Pointers in the Go graph become node identifiers (Nat); the node graph is
an association list from identifiers to node records, so shared and cyclic
graphs are representable.  Go panics are modelled as error results of an
Except type; machine integers are modelled as Int.
-/

namespace Castdiff

/-- Node identifiers: the Go implementation keys its visited set by pointer
identity; we key the graph and the visited set by an integer id. -/
abbrev NodeId := Nat

/-! ## ExprOp: the closed operator enumeration of cc/expr.go.

In Go, ExprOp is an int.  The constants below copy the iota block of
cc/expr.go (the blank first element makes Add = 1). -/

abbrev ExprOp := Int

def ExprOp.Add : Int := 1
def ExprOp.AddEq : Int := 2
def ExprOp.Addr : Int := 3
def ExprOp.And : Int := 4
def ExprOp.AndAnd : Int := 5
def ExprOp.AndEq : Int := 6
def ExprOp.Arrow : Int := 7
def ExprOp.Call : Int := 8
def ExprOp.CUDACall : Int := 9
def ExprOp.Cast : Int := 10
def ExprOp.CastInit : Int := 11
def ExprOp.Comma : Int := 12
def ExprOp.Cond : Int := 13
def ExprOp.Div : Int := 14
def ExprOp.DivEq : Int := 15
def ExprOp.Dot : Int := 16
def ExprOp.Eq : Int := 17
def ExprOp.EqEq : Int := 18
def ExprOp.Gt : Int := 19
def ExprOp.GtEq : Int := 20
def ExprOp.Index : Int := 21
def ExprOp.Indir : Int := 22
def ExprOp.Lsh : Int := 23
def ExprOp.LshEq : Int := 24
def ExprOp.LcuBrk : Int := 25
def ExprOp.Lt : Int := 26
def ExprOp.LtEq : Int := 27
def ExprOp.RcuBrk : Int := 28
def ExprOp.Minus : Int := 29
def ExprOp.Mod : Int := 30
def ExprOp.ModEq : Int := 31
def ExprOp.Mul : Int := 32
def ExprOp.MulEq : Int := 33
def ExprOp.Name : Int := 34
def ExprOp.Not : Int := 35
def ExprOp.NotEq : Int := 36
def ExprOp.Number : Int := 37
def ExprOp.Literal : Int := 38
def ExprOp.Offsetof : Int := 39
def ExprOp.Or : Int := 40
def ExprOp.OrEq : Int := 41
def ExprOp.OrOr : Int := 42
def ExprOp.Paren : Int := 43
def ExprOp.Plus : Int := 44
def ExprOp.PostDec : Int := 45
def ExprOp.PostInc : Int := 46
def ExprOp.PreDec : Int := 47
def ExprOp.PreInc : Int := 48
def ExprOp.Rsh : Int := 49
def ExprOp.RshEq : Int := 50
def ExprOp.SizeofExpr : Int := 51
def ExprOp.SizeofType : Int := 52
def ExprOp.String : Int := 53
def ExprOp.Sub : Int := 54
def ExprOp.SubEq : Int := 55
def ExprOp.Twid : Int := 56
def ExprOp.VaArg : Int := 57
def ExprOp.Xor : Int := 58
def ExprOp.XorEq : Int := 59
def ExprOp.LCuBrk : Int := 60
def ExprOp.RCuBrk : Int := 61

/-- The exprOpString table of cc/expr.go: a sparse Go slice literal indexed
by operator value.  Indices with no entry in the Go source (0, CUDACall = 9,
LcuBrk = 25, RcuBrk = 28) hold the zero value "".  Its length is 62
(highest index RCuBrk = 61, plus one). -/
def exprOpString : List String :=
  [ "",          -- 0 (blank iota slot)
    "Add",       -- 1
    "AddEq",     -- 2
    "Addr",      -- 3
    "And",       -- 4
    "AndAnd",    -- 5
    "AndEq",     -- 6
    "Arrow",     -- 7
    "Call",      -- 8
    "",          -- 9  CUDACall: no entry in the Go table
    "Cast",      -- 10
    "CastInit",  -- 11
    "Comma",     -- 12
    "Cond",      -- 13
    "Div",       -- 14
    "DivEq",     -- 15
    "Dot",       -- 16
    "Eq",        -- 17
    "EqEq",      -- 18
    "Gt",        -- 19
    "GtEq",      -- 20
    "Index",     -- 21
    "Indir",     -- 22
    "Lsh",       -- 23
    "LshEq",     -- 24
    "",          -- 25 LcuBrk: no entry in the Go table
    "Lt",        -- 26
    "LtEq",      -- 27
    "",          -- 28 RcuBrk: no entry in the Go table
    "Minus",     -- 29
    "Mod",       -- 30
    "ModEq",     -- 31
    "Mul",       -- 32
    "MulEq",     -- 33
    "Name",      -- 34
    "Not",       -- 35
    "NotEq",     -- 36
    "Number",    -- 37
    "Literal",   -- 38
    "Offsetof",  -- 39
    "Or",        -- 40
    "OrEq",      -- 41
    "OrOr",      -- 42
    "Paren",     -- 43
    "Plus",      -- 44
    "PostDec",   -- 45
    "PostInc",   -- 46
    "PreDec",    -- 47
    "PreInc",    -- 48
    "Rsh",       -- 49
    "RshEq",     -- 50
    "SizeofExpr", -- 51
    "SizeofType", -- 52
    "String",    -- 53
    "Sub",       -- 54
    "SubEq",     -- 55
    "Twid",      -- 56
    "VaArg",     -- 57
    "Xor",       -- 58
    "XorEq",     -- 59
    "LCuBrk",    -- 60
    "RCuBrk"]    -- 61

/-- Embeds ExprOp.String of cc/expr.go:

  if 0 <= int(op) && int(op) <= len(exprOpString) { return exprOpString[op] }
  return fmt.Sprintf("ExprOp(%d)", op)

The guard uses <= (not <), so for op = len(exprOpString) the Go code indexes
one past the end of the slice and panics; the out-of-range index is modelled
by the none result of list lookup.  An in-range index yields some entry, and
a guard failure yields the formatted fallback string. -/
def exprOpGoString (op : Int) : Option String :=
  if 0 ≤ op ∧ op ≤ (exprOpString.length : Int) then
    exprOpString[op.toNat]?
  else
    some ("ExprOp(" ++ toString op ++ ")")

/-! ## The node graph.

Each Go node kind that the traversal in cc/expr.go dispatches on becomes a
record holding exactly the fields that walk and GetChildren touch.  Pointer
and interface fields become Option NodeId (none models a nil pointer or nil
interface); slice fields become lists.  Derived back-references (XDecl,
XType, SourceExpr) are touched by neither walk nor GetChildren and are
omitted. -/

/-- The literal leaf kinds of the syntax family: EmptyLiteral,
BooleanLiteral, IntegerLiteral, CharLiteral, RealLiteral, StringLiteral,
SymbolLiteral and LanguageKeyword.  walk treats them all alike (no
children). -/
inductive LitKind where
  | empty
  | boolean
  | integer
  | char
  | real
  | str
  | symbol
  | keyword
deriving DecidableEq

/-- The Expr struct of cc/expr.go, restricted to the fields read by
GetChildren and walk: Op, Left, Right, List, LaunchParams, Text, Texts,
Type, Init, Block. -/
structure ExprNode where
  op : ExprOp
  left : Option NodeId
  right : Option NodeId
  list : List (Option NodeId)
  launchParams : List (Option NodeId)
  text : Option NodeId
  texts : List (Option NodeId)
  type : Option NodeId
  init : Option NodeId
  block : List (Option NodeId)
deriving DecidableEq

/-- The Decl fields walked by walk: Type, Init, Body. -/
structure DeclNode where
  type : Option NodeId
  init : Option NodeId
  body : Option NodeId
deriving DecidableEq

/-- The Init struct of cc/expr.go: Prefix, Expr, Braced.  walk descends only
into Braced and Expr; GetChildren also lists the prefixes. -/
structure InitNode where
  prefixes : List (Option NodeId)
  expr : Option NodeId
  braced : List (Option NodeId)
deriving DecidableEq

/-- The Type fields walked by walk: Base, Decls, Width. -/
structure TypeNode where
  base : Option NodeId
  decls : List (Option NodeId)
  width : Option NodeId
deriving DecidableEq

/-- The Stmt fields walked by walk: Pre, Expr, Post, Decl, Body, Else, Text,
Block, Labels. -/
structure StmtNode where
  pre : Option NodeId
  expr : Option NodeId
  post : Option NodeId
  decl : Option NodeId
  body : Option NodeId
  els : Option NodeId
  text : Option NodeId
  block : List (Option NodeId)
  labels : List (Option NodeId)
deriving DecidableEq

/-- The Label fields walked by walk: Name, Expr. -/
structure LabelNode where
  name : Option NodeId
  expr : Option NodeId
deriving DecidableEq

/-- The Prog field walked by walk: Decls. -/
structure ProgNode where
  decls : List (Option NodeId)
deriving DecidableEq

/-- The Prefix struct of cc/expr.go: Dot, Index.  Prefix implements the
Syntax interface but the switch in walk has no case for it, so walking a
Prefix hits the panicking default case. -/
structure PrefixNode where
  dot : Option NodeId
  index : Option NodeId
deriving DecidableEq

/-- A Syntax value: one of the concrete node kinds of the cc package. -/
inductive Node where
  | lit (k : LitKind)
  | prog (p : ProgNode)
  | decl (d : DeclNode)
  | initNd (i : InitNode)
  | typeNd (t : TypeNode)
  | expr (e : ExprNode)
  | stmt (s : StmtNode)
  | label (l : LabelNode)
  | prefixNd (p : PrefixNode)
deriving DecidableEq

/-- A node graph: an association list from node id to node (first match
wins, like the heap of Go nodes addressed by pointer). -/
abbrev Graph := List (NodeId × Node)

/-- Pointer dereference: find the node a given id denotes. -/
def lookupG : Graph → NodeId → Option Node
  | [], _ => none
  | (j, nd) :: g, i => if i = j then some nd else lookupG g i

/-- The sub-node slots walk descends into for each node kind, in the exact
textual order of the walk switch in cc/expr.go.  For Expr this is Left,
Text, Right, LaunchParams, Texts, List, Type, Init, Block.  Prefix has no
case in the switch; walk never reaches its slot list (it panics first). -/
def childSlots : Node → List (Option NodeId)
  | .lit _ => []
  | .prog p => p.decls
  | .decl d => [d.type, d.init, d.body]
  | .initNd i => i.braced ++ [i.expr]
  | .typeNd t => [t.base] ++ t.decls ++ [t.width]
  | .expr e => [e.left, e.text, e.right] ++ e.launchParams ++ e.texts
      ++ e.list ++ [e.type, e.init] ++ e.block
  | .stmt s => [s.pre, s.expr, s.post, s.decl, s.body, s.els, s.text]
      ++ s.block ++ s.labels
  | .label l => [l.name, l.expr]
  | .prefixNd _ => []

/-- Whether the type switch in walk has a case for this node kind.  Every
kind except Prefix is listed; the default case of the switch panics. -/
def hasWalkRule : Node → Bool
  | .prefixNd _ => false
  | _ => true

/-- Visitor events of a traversal: enter records a call of the before
callback, leave a call of the after callback. -/
inductive Event where
  | enter (i : NodeId)
  | leave (i : NodeId)
deriving DecidableEq

/-- Abnormal outcomes of the modelled walk.  noRule models the
panic("walk: unexpected type ...") of the default switch case; missingNode
is a dangling id (unreachable for graphs built from Go pointers); outOfFuel
marks exhaustion of the step budget. -/
inductive WErr where
  | noRule (i : NodeId)
  | missingNode (i : NodeId)
  | outOfFuel
deriving DecidableEq

/-- The walk function of cc/expr.go, processing a worklist of sibling
slots left to right.  For a slot:
  * nil (none) returns at the x == nil check, or hits the typed-nil
    sentinels pre-seeded into the visited map by Walk;
  * an id already in seen returns at the seen[x] check;
  * otherwise the node is marked seen, before(x) fires (the enter event),
    its child slots are walked in order, and after(x) fires (the leave
    event); a node kind with no case in the switch panics (noRule).
Each visit of an unseen node consumes one unit of fuel, as does popping a
worklist entry; the termination theorem shows a budget computed from the
graph is always enough. -/
def walkSeq (g : Graph) : Nat → List (Option NodeId) → List NodeId →
    Except WErr (List Event × List NodeId)
  | _, [], seen => .ok ([], seen)
  | 0, _ :: _, _ => .error .outOfFuel
  | fuel+1, none :: cs, seen => walkSeq g fuel cs seen
  | fuel+1, some i :: cs, seen =>
    if i ∈ seen then walkSeq g fuel cs seen
    else
      match lookupG g i with
      | none => .error (.missingNode i)
      | some nd =>
        if hasWalkRule nd then
          match walkSeq g fuel (childSlots nd) (i :: seen) with
          | .error e => .error e
          | .ok (tr1, s1) =>
            match walkSeq g fuel cs s1 with
            | .error e => .error e
            | .ok (tr2, s2) =>
              .ok ((Event.enter i :: tr1 ++ [Event.leave i]) ++ tr2, s2)
        else .error (.noRule i)

/-- Walk of cc/expr.go: walk the root with an initially empty visited set.
The Go seen map is pre-seeded with nil sentinel values, which the none case
of walkSeq models uniformly. -/
def WalkGo (g : Graph) (fuel : Nat) (root : Option NodeId) :
    Except WErr (List Event × List NodeId) :=
  walkSeq g fuel [root] []

/-- The ids of the enter events of a trace, in order: the calls Preorder's
f receives (Preorder x f = Walk x f noop). -/
def entersOf (tr : List Event) : List NodeId :=
  tr.filterMap (fun e => match e with | .enter i => some i | .leave _ => none)

/-- The ids of the leave events of a trace, in order: the calls Postorder's
f receives (Postorder x f = Walk x noop f). -/
def leavesOf (tr : List Event) : List NodeId :=
  tr.filterMap (fun e => match e with | .enter _ => none | .leave i => some i)

/-- One traversal step: j fills one of the walked child slots of node i. -/
def stepG (g : Graph) (i j : NodeId) : Prop :=
  ∃ nd, lookupG g i = some nd ∧ some j ∈ childSlots nd

/-- Reachability along walked child slots. -/
def ReachG (g : Graph) : NodeId → NodeId → Prop :=
  Relation.ReflTransGen (stepG g)

/-! ## GetChildren of the Expr node (cc/expr.go lines 35-102). -/

/-- A conditionally appended pointer slot: appended only when non-nil
(the if x.Slot != nil checks of the default switch case). -/
def optSlot : Option NodeId → List (Option NodeId)
  | some i => [some i]
  | none => []

/-- The operand-list loop of GetChildren: when the list is non-empty, each
non-nil element is appended. -/
def listFiltered (l : List (Option NodeId)) : List (Option NodeId) :=
  if l.length ≠ 0 then l.filter (fun c => c.isSome) else []

/-- The unconditional head of every GetChildren result: Text when non-nil,
then all Texts elements (appended wholesale, without nil checks, when the
Texts slice is non-empty). -/
def textPre (e : ExprNode) : List (Option NodeId) :=
  (optSlot e.text) ++ (if e.texts.length ≠ 0 then e.texts else [])

/-- GetChildren of an Expr (cc/expr.go): after the Text/Texts prelude, a
switch on the operator tag.  The special cases append their named slots
unconditionally (nil values included); the default case appends Type, Left,
Right only when non-nil and then the filtered operand list.  The Cond case
indexes List[0], List[1], List[2], which panics (none) when the list is
shorter than three. -/
def getChildren (e : ExprNode) : Option (List (Option NodeId)) :=
  let lst := textPre e
  if e.op = ExprOp.Arrow then some (lst ++ [e.left])
  else if e.op = ExprOp.Call then some (lst ++ [e.left] ++ listFiltered e.list)
  else if e.op = ExprOp.Comma then some (lst ++ listFiltered e.list)
  else if e.op = ExprOp.Cond then
    match e.list with
    | a :: b :: c :: _ => some (lst ++ [a, b, c])
    | _ => none
  else if e.op = ExprOp.Dot then some (lst ++ [e.left])
  else if e.op = ExprOp.Cast then some (lst ++ [e.type])
  else if e.op = ExprOp.CastInit then some (lst ++ [e.type])
  else if e.op = ExprOp.Index then some (lst ++ [e.left, e.right])
  else if e.op = ExprOp.Offsetof then some (lst ++ [e.type, e.left])
  else if e.op = ExprOp.Paren then some (lst ++ [e.left])
  else if e.op = ExprOp.PostDec then some (lst ++ [e.left])
  else if e.op = ExprOp.PostInc then some (lst ++ [e.left])
  else if e.op = ExprOp.VaArg then some (lst ++ [e.left, e.type])
  else some (lst ++ optSlot e.type ++ optSlot e.left ++ optSlot e.right
      ++ listFiltered e.list)

/-- The operator tags with their own case in the GetChildren switch;
every other tag falls to the default case. -/
def specialOps : List Int :=
  [ExprOp.Arrow, ExprOp.Call, ExprOp.Comma, ExprOp.Cond, ExprOp.Dot,
   ExprOp.Cast, ExprOp.CastInit, ExprOp.Index, ExprOp.Offsetof,
   ExprOp.Paren, ExprOp.PostDec, ExprOp.PostInc, ExprOp.VaArg]

/-- The fixed slot order in which walk descends into an Expr node,
independent of the operator tag (cc/expr.go lines 390-407). -/
def exprWalkSlots (e : ExprNode) : List (Option NodeId) :=
  [e.left, e.text, e.right] ++ e.launchParams ++ e.texts
    ++ e.list ++ [e.type, e.init] ++ e.block

/-! ## Concrete nodes and graphs used to evaluate the theorems. -/

/-- An Arrow expression with a member-name text payload (id 5) and a left
operand (id 6): the ordinary shape of a member access a->b. -/
def eArrowText : ExprNode :=
  ⟨ExprOp.Arrow, some 6, none, [], [], some 5, [], none, none, []⟩

/-- An Arrow expression with every optional slot unset. -/
def eArrowNil : ExprNode :=
  ⟨ExprOp.Arrow, none, none, [], [], none, [], none, none, []⟩

/-- A Cond expression whose operand list holds the three branches and whose
Text slot is also populated (id 9). -/
def eCondText : ExprNode :=
  ⟨ExprOp.Cond, none, none, [some 1, some 2, some 3], [], some 9, [],
    none, none, []⟩

/-- A Cond expression with the three branches and no text payloads. -/
def eCond3 : ExprNode :=
  ⟨ExprOp.Cond, none, none, [some 1, some 2, some 3], [], none, [],
    none, none, []⟩

/-- A Dot expression with only the left operand set. -/
def eDotOnly : ExprNode :=
  ⟨ExprOp.Dot, some 4, none, [], [], none, [], none, none, []⟩

/-- A default-case expression (Add) with the right operand unset. -/
def eAddNil : ExprNode :=
  ⟨ExprOp.Add, some 1, none, [], [], none, [], none, none, []⟩

/-- A Cast expression: (Type 2) applied to operand expression 1. -/
def eCast0 : ExprNode :=
  ⟨ExprOp.Cast, some 1, none, [], [], none, [], some 2, none, []⟩

/-- A graph rooted at the Cast expression 0 with operand 1 and type 2. -/
def gCast : Graph :=
  [(0, .expr eCast0), (1, .lit .integer), (2, .typeNd ⟨none, [], none⟩)]

/-- Diamond node 0: an Add whose operands are nodes 1 and 2. -/
def dN0 : Node :=
  .expr ⟨ExprOp.Add, some 1, some 2, [], [], none, [], none, none, []⟩

/-- Diamond node 1: a Paren whose operand is node 3. -/
def dN1 : Node :=
  .expr ⟨ExprOp.Paren, some 3, none, [], [], none, [], none, none, []⟩

/-- Diamond node 2: an Indir whose operand is also node 3. -/
def dN2 : Node :=
  .expr ⟨ExprOp.Indir, some 3, none, [], [], none, [], none, none, []⟩

/-- Diamond node 3: a shared literal leaf. -/
def dN3 : Node := .lit .integer

/-- A diamond graph: Add node 0 has operands 1 and 2, and both 1 (a Paren)
and 2 (an Indir) share the literal 3 as their operand, so node 3 is
reachable along two different paths. -/
def gDiamond : Graph := [(0, dN0), (1, dN1), (2, dN2), (3, dN3)]

/-- A cyclic graph: Paren node 0 points at Paren node 1 and 1 points back
at 0 (the shape a derived back-reference produces). -/
def gCyc : Graph :=
  [(0, .expr ⟨ExprOp.Paren, some 1, none, [], [], none, [], none, none, []⟩),
   (1, .expr ⟨ExprOp.Paren, some 0, none, [], [], none, [], none, none, []⟩)]

/-- A graph whose root is a Prefix node: the one Syntax kind the walk
switch has no case for. -/
def gPfx : Graph := [(0, .prefixNd ⟨none, none⟩)]

/-! ## Fuel accounting for the termination theorem. -/

/-- The ids bound in the graph. -/
def graphIds (g : Graph) : Finset NodeId := (g.map Prod.fst).toFinset

/-- One unit for visiting a node plus one per child slot popped. -/
def nodeCost (nd : Node) : Nat := 1 + (childSlots nd).length

/-- The cost charged against an id. -/
def idCost (g : Graph) (i : NodeId) : Nat :=
  match lookupG g i with
  | some nd => nodeCost nd
  | none => 1

/-- Total cost of the nodes not yet visited. -/
def remCost (g : Graph) (seen : List NodeId) : Nat :=
  ((graphIds g).filter (fun i => i ∉ seen)).sum (idCost g)

/-- Fuel sufficient for a walk of the worklist cs with visited set seen. -/
def walkNeed (g : Graph) (cs : List (Option NodeId)) (seen : List NodeId) :
    Nat :=
  cs.length + remCost g seen

/-! ## The kind-tagged codec family (syntax/ast/cast_expr.go). -/

/-- A JSON-like wire value for the codec records. -/
inductive JVal where
  | jstr (s : String)
  | jnum (n : Int)
  | jobj (fields : List (String × JVal))

/-- Field lookup in a wire record (first binding wins). -/
def jfind : List (String × JVal) → String → Option JVal
  | [], _ => none
  | (k, v) :: fs, key => if key = k then some v else jfind fs key

/-- Modelled from the spec: the Type node a CastExpr carries; its Go
definition is not under src/.  The spec's round-trip example uses a plain
named type (float), so the model keeps one scalar name field. -/
structure AstType where
  name : String
deriving DecidableEq

/-- The kind-tagged expression family of the codec.  The castExpr variant
carries the fields of the CastExpr struct of syntax/ast/cast_expr.go (Id,
Op, Type, Expr); the AssignOp tag is an integer.  Modelled from the spec:
the nameExpr leaf variant stands for the operand expression kinds (such as
the name x of the spec's round-trip example) whose Go definitions are not
under src/. -/
inductive AstExpr where
  | castExpr (id : Int) (op : Int) (ty : AstType) (ex : AstExpr)
  | nameExpr (id : Int) (nm : String)
deriving DecidableEq

/-- The recoverable decode failure (FormatError): unrecognized
discriminant, absent required field, or a field of the wrong shape. -/
inductive FormatErr where
  | unknownKind (s : String)
  | missingField (s : String)
  | badShape (s : String)
deriving DecidableEq

/-- Modelled from the spec: the wire form of the type sub-record. -/
def encodeType (t : AstType) : JVal :=
  .jobj [("kind", .jstr "Type"), ("name", .jstr t.name)]

/-- MarshalJSON of syntax/ast/cast_expr.go: the discriminant field kind is
set to "CastExpr" immediately before the struct is serialized with its
json-tagged fields kind, id, op, type, expr.  Modelled from the spec: the
wire form of the nameExpr leaf, whose Go source is not under src/. -/
def encodeExpr : AstExpr → JVal
  | .castExpr id op ty ex =>
    .jobj [("kind", .jstr "CastExpr"), ("id", .jnum id), ("op", .jnum op),
           ("type", encodeType ty), ("expr", encodeExpr ex)]
  | .nameExpr id nm =>
    .jobj [("kind", .jstr "Name"), ("id", .jnum id), ("name", .jstr nm)]

/-- Modelled from the spec: decoding of the type sub-record. -/
def decodeType : JVal → Except FormatErr AstType
  | .jobj fs =>
    match jfind fs "name" with
    | some (.jstr s) => .ok ⟨s⟩
    | some _ => .error (.badShape "name")
    | none => .error (.missingField "name")
  | _ => .error (.badShape "type")

/-- Modelled from the spec: one layer of the decoder of the expression
family, whose concrete Go form lives outside src/ (cast_expr.go only
delegates to json.Unmarshal).  It reads the kind discriminant, rejects an
unrecognized one with a FormatError, requires the fields of the selected
kind with their expected shapes, and hands the nested expression record to
the given recursive continuation. -/
def decodeStep (recf : JVal → Except FormatErr AstExpr) :
    JVal → Except FormatErr AstExpr
  | .jstr _ => .error (.badShape "expr")
  | .jnum _ => .error (.badShape "expr")
  | .jobj fs =>
    match jfind fs "kind" with
    | none => .error (.missingField "kind")
    | some (.jnum _) => .error (.badShape "kind")
    | some (.jobj _) => .error (.badShape "kind")
    | some (.jstr s) =>
      if s = "CastExpr" then
        match jfind fs "id", jfind fs "op", jfind fs "type",
            jfind fs "expr" with
        | some (.jnum i), some (.jnum op), some tv, some ev =>
          match decodeType tv, recf ev with
          | .ok ty, .ok ex => .ok (.castExpr i op ty ex)
          | .error e, _ => .error e
          | .ok _, .error e => .error e
        | _, _, _, _ => .error (.missingField "CastExpr")
      else if s = "Name" then
        match jfind fs "id", jfind fs "name" with
        | some (.jnum i), some (.jstr nm) => .ok (.nameExpr i nm)
        | _, _ => .error (.missingField "Name")
      else .error (.unknownKind s)

/-- Modelled from the spec: the decoder of the expression family, the
step function iterated to the given recursion depth; depthE computes a
budget sufficient for any encoded node. -/
def decodeExprF : Nat → JVal → Except FormatErr AstExpr
  | 0 => fun _ => .error (.badShape "depth")
  | fuel+1 => decodeStep (decodeExprF fuel)

/-- A recursion budget sufficient to decode the encoding of a node. -/
def depthE : AstExpr → Nat
  | .castExpr _ _ _ ex => depthE ex + 1
  | .nameExpr _ _ => 1

/-- A wire record carrying the unrecognized discriminant BogusExpr. -/
def bogusRecord : JVal :=
  .jobj [("kind", .jstr "BogusExpr"), ("id", .jnum 7)]

/-! ## Helper lemmas. -/

@[simp] theorem entersOf_nil : entersOf [] = [] := rfl

@[simp] theorem entersOf_append (a b : List Event) :
    entersOf (a ++ b) = entersOf a ++ entersOf b := by
  simp [entersOf, List.filterMap_append]

@[simp] theorem entersOf_enter (i : NodeId) (tr : List Event) :
    entersOf (Event.enter i :: tr) = i :: entersOf tr := rfl

@[simp] theorem entersOf_leave (i : NodeId) (tr : List Event) :
    entersOf (Event.leave i :: tr) = entersOf tr := rfl

@[simp] theorem leavesOf_nil : leavesOf [] = [] := rfl

@[simp] theorem leavesOf_append (a b : List Event) :
    leavesOf (a ++ b) = leavesOf a ++ leavesOf b := by
  simp [leavesOf, List.filterMap_append]

@[simp] theorem leavesOf_enter (i : NodeId) (tr : List Event) :
    leavesOf (Event.enter i :: tr) = leavesOf tr := rfl

@[simp] theorem leavesOf_leave (i : NodeId) (tr : List Event) :
    leavesOf (Event.leave i :: tr) = i :: leavesOf tr := rfl

theorem optSlot_all_isSome (o : Option NodeId) :
    (optSlot o).all (fun c => c.isSome) = true := by
  cases o <;> simp [optSlot]

theorem listFiltered_all_isSome (l : List (Option NodeId)) :
    (listFiltered l).all (fun c => c.isSome) = true := by
  rw [listFiltered]
  split
  · simp only [List.all_eq_true]
    intro c hc
    exact (List.mem_filter.mp hc).2
  · rfl

theorem textPre_all_isSome (e : ExprNode)
    (ht : e.texts.all (fun c => c.isSome) = true) :
    (textPre e).all (fun c => c.isSome) = true := by
  rw [textPre, List.all_append, optSlot_all_isSome, Bool.true_and]
  split
  · exact ht
  · rfl

/-! ## Claim C10: totality of ExprOp.String. -/

/-- C10: refuted as stated; the code has an off-by-one.  The name table has
62 entries, the guard of ExprOp.String accepts op <= len(exprOpString), and
at the boundary value 62 the Go code evaluates exprOpString[62], an
out-of-range index that panics (the none result below) instead of
returning the fallback "ExprOp(62)".  For every other integer the function
does return a string: an in-range entry or the fallback. -/
theorem exprOpGoString_boundary :
    exprOpString.length = 62 ∧
      exprOpGoString 62 = none ∧
      exprOpGoString 61 = some "RCuBrk" ∧
      exprOpGoString 63 = some "ExprOp(63)" ∧
      exprOpGoString (-1) = some "ExprOp(-1)" := by
  refine ⟨rfl, rfl, rfl, rfl, rfl⟩

/-! ## Claim C3: Arrow and Dot children. -/

/-- C3 counterexample: on the Arrow node eArrowText (member-name text
payload id 5, left operand id 6), GetChildren returns the text payload as
its first element and has two elements, so the result is not exactly the
left operand alone. -/
theorem getChildren_arrow_text_cex :
    getChildren eArrowText = some [some 5, some 6] ∧
      ((getChildren eArrowText).getD []).length ≠ 1 := by
  refine ⟨rfl, by decide⟩

/-- C3 amended: for an Arrow or Dot node, GetChildren returns the Text
payload (when present) and the Texts elements first, followed by the Left
slot, appended unconditionally, as the only operand child; when the text
payloads are absent the result is exactly [Left]. -/
theorem getChildren_arrow_dot (e : ExprNode)
    (hop : e.op = ExprOp.Arrow ∨ e.op = ExprOp.Dot) :
    getChildren e = some (textPre e ++ [e.left]) ∧
      (e.text = none → e.texts = [] → getChildren e = some [e.left]) := by
  have hmain : getChildren e = some (textPre e ++ [e.left]) := by
    rcases hop with h | h <;>
      simp [getChildren, h, ExprOp.Arrow, ExprOp.Call, ExprOp.Comma,
        ExprOp.Cond, ExprOp.Dot]
  refine ⟨hmain, fun ht hts => ?_⟩
  rw [hmain]
  simp [textPre, optSlot, ht, hts]

/-- C3 witness: the Dot node with only a left operand. -/
theorem getChildren_arrow_dot_witness :
    getChildren eDotOnly = some [some 4] :=
  (getChildren_arrow_dot eDotOnly (Or.inr rfl)).2 rfl rfl

/-! ## Claim C4: nil elements in GetChildren. -/

/-- C4 counterexample: the Arrow node with every slot unset still gets its
nil Left slot appended, so GetChildren returns a sequence containing a
nil element. -/
theorem getChildren_nil_element_cex :
    getChildren eArrowNil = some [none] ∧
      ((getChildren eArrowNil).getD []).all (fun c => c.isSome) = false := by
  refine ⟨rfl, by decide⟩

/-- C4 amended: for operator tags handled by the default case of the
GetChildren switch, and when the Texts slice carries no nil entries, the
result contains no nil element (the default case tests Type, Left and
Right before appending and filters the operand list).  The special-cased
tags instead append their named slots unconditionally, so for them an
unset slot appears as a nil element (see the counterexample). -/
theorem getChildren_default_no_nil (e : ExprNode)
    (hop : e.op ∉ specialOps)
    (ht : e.texts.all (fun c => c.isSome) = true) :
    getChildren e ≠ none ∧
      ((getChildren e).getD []).all (fun c => c.isSome) = true := by
  simp only [specialOps, List.mem_cons, List.not_mem_nil, or_false,
    not_or] at hop
  obtain ⟨h1, h2, h3, h4, h5, h6, h7, h8, h9, h10, h11, h12, h13⟩ := hop
  constructor
  · simp [getChildren, h1, h2, h3, h4, h5, h6, h7, h8, h9, h10, h11, h12, h13]
  · simp only [getChildren, if_neg h1, if_neg h2, if_neg h3, if_neg h4,
      if_neg h5, if_neg h6, if_neg h7, if_neg h8, if_neg h9, if_neg h10,
      if_neg h11, if_neg h12, if_neg h13, Option.getD_some]
    simp [List.all_append, textPre_all_isSome e ht, optSlot_all_isSome,
      listFiltered_all_isSome]

/-- C4 witness: a default-case Add node with an unset right operand. -/
theorem getChildren_default_no_nil_witness :
    getChildren eAddNil ≠ none ∧
      ((getChildren eAddNil).getD []).all (fun c => c.isSome) = true :=
  getChildren_default_no_nil eAddNil (by decide) (by decide)

/-! ## Claim C5: Cond children. -/

/-- C5 counterexample: on the Cond node eCondText, whose operand list holds
the three branches but whose Text slot is also populated, GetChildren
returns four elements (the text payload first), not exactly three. -/
theorem getChildren_cond_text_cex :
    getChildren eCondText = some [some 9, some 1, some 2, some 3] ∧
      ((getChildren eCondText).getD []).length ≠ 3 := by
  refine ⟨rfl, by decide⟩

/-- C5 amended: on a Cond node with no text payloads and the three branches
at the head of its operand list, GetChildren returns exactly the three
branches, in condition, then-branch, else-branch order. -/
theorem getChildren_cond (e : ExprNode) (a b c : Option NodeId)
    (rest : List (Option NodeId)) (hop : e.op = ExprOp.Cond)
    (ht : e.text = none) (hts : e.texts = [])
    (hl : e.list = a :: b :: c :: rest) :
    getChildren e = some [a, b, c] := by
  simp [getChildren, hop, ht, hts, hl, textPre, optSlot, ExprOp.Arrow,
    ExprOp.Call, ExprOp.Comma, ExprOp.Cond]

/-- C5 witness: the plain three-branch Cond node. -/
theorem getChildren_cond_witness :
    getChildren eCond3 = some [some 1, some 2, some 3] :=
  getChildren_cond eCond3 (some 1) (some 2) (some 3) [] rfl rfl rfl rfl

/-! ## Claim C9: walking a node kind with no traversal rule. -/

/-- C9: when walk reaches a node kind the type switch has no case for
(Prefix), the whole traversal aborts with the modelled panic of the
default case: the result is the noRule error, never an ok result with the
node silently skipped. -/
theorem walk_no_rule_fatal (g : Graph) (fuel : Nat) (i : NodeId)
    (p : PrefixNode) (cs : List (Option NodeId)) (seen : List NodeId)
    (h : lookupG g i = some (.prefixNd p)) (h2 : i ∉ seen) :
    walkSeq g (fuel+1) (some i :: cs) seen = .error (.noRule i) := by
  simp [walkSeq, h, h2, hasWalkRule]

/-- C9 witness: walking the graph whose root is a Prefix node. -/
theorem walk_no_rule_fatal_witness :
    walkSeq gPfx 5 [some 0] [] = .error (.noRule 0) :=
  walk_no_rule_fatal gPfx 4 0 ⟨none, none⟩ [] [] rfl (by decide)

/-! ## Claim C2: the walk descent order versus GetChildren. -/

/-- C2 counterexample: in the graph gCast the walk of Cast node 0 descends
into its Left operand, node 1, and visits it before the Type node 2,
although GetChildren of that node lists only the Type: the sub-nodes the
traversal engine descends into are not the GetChildren sequence, in either
membership or order. -/
theorem walk_vs_getChildren_cex :
    walkSeq gCast 20 [some 0] [] =
      .ok ([Event.enter 0, Event.enter 1, Event.leave 1,
            Event.enter 2, Event.leave 2, Event.leave 0], [2, 1, 0]) ∧
      getChildren eCast0 = some [some 2] ∧
      (1 : NodeId) ∈ entersOf [Event.enter 0, Event.enter 1, Event.leave 1,
            Event.enter 2, Event.leave 2, Event.leave 0] ∧
      some 1 ∉ ((getChildren eCast0).getD []) := by
  refine ⟨rfl, rfl, by decide, by decide⟩

/-- C2 amended: walk never consults GetChildren; on an Expr node it
descends into the fixed slot sequence Left, Text, Right, LaunchParams,
Texts, List, Type, Init, Block (exprWalkSlots), skipping nil and
already-seen entries, and only then resumes the remaining worklist. -/
theorem walk_expr_slot_order (g : Graph) (fuel : Nat) (i : NodeId)
    (e : ExprNode) (cs : List (Option NodeId)) (seen : List NodeId)
    (h : lookupG g i = some (.expr e)) (h2 : i ∉ seen) :
    walkSeq g (fuel+1) (some i :: cs) seen =
      match walkSeq g fuel (exprWalkSlots e) (i :: seen) with
      | .error err => .error err
      | .ok (tr1, s1) =>
        match walkSeq g fuel cs s1 with
        | .error err => .error err
        | .ok (tr2, s2) =>
          .ok ((Event.enter i :: tr1 ++ [Event.leave i]) ++ tr2, s2) := by
  simp [walkSeq, h, h2, hasWalkRule, childSlots, exprWalkSlots]

/-- C2 witness: the amended slot-order equation evaluated on the concrete
Cast graph. -/
theorem walk_expr_slot_order_witness :
    walkSeq gCast 10 [some 0] [] =
      match walkSeq gCast 9 (exprWalkSlots eCast0) [0] with
      | .error err => .error err
      | .ok (tr1, s1) =>
        match walkSeq gCast 9 ([] : List (Option NodeId)) s1 with
        | .error err => .error err
        | .ok (tr2, s2) =>
          .ok ((Event.enter 0 :: tr1 ++ [Event.leave 0]) ++ tr2, s2) :=
  walk_expr_slot_order gCast 9 0 eCast0 [] [] rfl (by decide)

/-- Master invariant of a successful walk: the final visited set is the
entered ids (in reverse entry order) on top of the initial one; no id is
entered twice; every entered id was unseen at the start and is bound in
the graph; and the leave events are a permutation of the enter events. -/
theorem walkSeq_ok_spec (g : Graph) :
    ∀ (fuel : Nat) (cs : List (Option NodeId)) (seen : List NodeId)
      (tr : List Event) (s' : List NodeId),
      walkSeq g fuel cs seen = .ok (tr, s') →
      s' = (entersOf tr).reverse ++ seen ∧
      (entersOf tr).Nodup ∧
      (∀ j ∈ entersOf tr, j ∉ seen ∧ (lookupG g j).isSome) ∧
      (leavesOf tr).Perm (entersOf tr) := by
  intro fuel
  induction fuel with
  | zero =>
    intro cs seen tr s' h
    match cs with
    | [] =>
      simp only [walkSeq, Except.ok.injEq, Prod.mk.injEq] at h
      obtain ⟨h1, h2⟩ := h
      subst h1
      subst h2
      simp
    | c :: cs =>
      simp only [walkSeq] at h
      exact absurd h (by simp)
  | succ fuel ih =>
    intro cs seen tr s' h
    match cs with
    | [] =>
      simp only [walkSeq, Except.ok.injEq, Prod.mk.injEq] at h
      obtain ⟨h1, h2⟩ := h
      subst h1
      subst h2
      simp
    | none :: cs =>
      rw [show walkSeq g (fuel+1) (none :: cs) seen
          = walkSeq g fuel cs seen from rfl] at h
      exact ih cs seen tr s' h
    | some i :: cs =>
      simp only [walkSeq] at h
      by_cases hi : i ∈ seen
      · rw [if_pos hi] at h
        exact ih cs seen tr s' h
      · rw [if_neg hi] at h
        split at h
        · exact absurd h (by simp)
        next nd hg =>
          split at h
          case isFalse => exact absurd h (by simp)
          case isTrue hw =>
            split at h
            · exact absurd h (by simp)
            next tr1 s1 h1 =>
              split at h
              · exact absurd h (by simp)
              next tr2 s2 h2 =>
                simp only [Except.ok.injEq, Prod.mk.injEq] at h
                obtain ⟨htr, hs⟩ := h
                subst htr
                subst hs
                obtain ⟨ihs1, ihn1, ihm1, ihp1⟩ :=
                  ih (childSlots nd) (i :: seen) tr1 s1 h1
                obtain ⟨ihs2, ihn2, ihm2, ihp2⟩ := ih cs s1 tr2 s2 h2
                have hE : entersOf ((Event.enter i :: tr1 ++ [Event.leave i])
                    ++ tr2) = i :: (entersOf tr1 ++ entersOf tr2) := by simp
                have hL : leavesOf ((Event.enter i :: tr1 ++ [Event.leave i])
                    ++ tr2) = (leavesOf tr1 ++ [i]) ++ leavesOf tr2 := by simp
                have hmem_s1 : ∀ j ∈ entersOf tr1, j ∈ s1 := by
                  intro j hj
                  rw [ihs1]
                  simp [hj]
                have his1 : i ∈ s1 := by
                  rw [ihs1]
                  simp
                have hseen_s1 : ∀ x ∈ seen, x ∈ s1 := by
                  intro x hx
                  rw [ihs1]
                  simp [hx]
                refine ⟨?_, ?_, ?_, ?_⟩
                · rw [hE, ihs2, ihs1]
                  simp [List.reverse_append]
                · rw [hE, List.nodup_cons]
                  constructor
                  · intro hmem
                    rcases List.mem_append.mp hmem with hmem | hmem
                    · exact (ihm1 i hmem).1 (List.mem_cons_self i seen)
                    · exact (ihm2 i hmem).1 his1
                  · rw [List.nodup_append]
                    refine ⟨ihn1, ihn2, ?_⟩
                    intro j hj1 hj2
                    exact (ihm2 j hj2).1 (hmem_s1 j hj1)
                · rw [hE]
                  intro j hj
                  rcases List.mem_cons.mp hj with rfl | hj
                  · refine ⟨hi, ?_⟩
                    rw [hg]
                    rfl
                  rcases List.mem_append.mp hj with hj | hj
                  · exact ⟨fun hc => (ihm1 j hj).1 (List.mem_cons_of_mem i hc),
                      (ihm1 j hj).2⟩
                  · exact ⟨fun hc => (ihm2 j hj).1 (hseen_s1 j hc),
                      (ihm2 j hj).2⟩
                · rw [hE, hL]
                  have e1 : (leavesOf tr1 ++ [i]) ++ leavesOf tr2
                      = leavesOf tr1 ++ i :: leavesOf tr2 := by
                    simp [List.append_assoc]
                  rw [e1]
                  exact List.Perm.trans List.perm_middle
                    (List.Perm.cons i (List.Perm.append ihp1 ihp2))

theorem lookupG_mem_ids (g : Graph) (i : NodeId) (nd : Node)
    (h : lookupG g i = some nd) : i ∈ graphIds g := by
  induction g with
  | nil => simp [lookupG] at h
  | cons p g ihg =>
    obtain ⟨j, nd'⟩ := p
    rw [lookupG] at h
    by_cases hij : i = j
    · simp [graphIds, hij]
    · rw [if_neg hij] at h
      have := ihg h
      simp only [graphIds, List.map_cons, List.toFinset_cons,
        Finset.mem_insert] at this ⊢
      exact Or.inr this

theorem remCost_mono (g : Graph) (s s' : List NodeId)
    (h : ∀ j ∈ s, j ∈ s') : remCost g s' ≤ remCost g s := by
  refine Finset.sum_le_sum_of_subset ?_
  intro i hi
  simp only [Finset.mem_filter] at hi ⊢
  exact ⟨hi.1, fun hmem => hi.2 (h i hmem)⟩

theorem remCost_cons (g : Graph) (i : NodeId) (nd : Node)
    (seen : List NodeId) (h : lookupG g i = some nd) (h2 : i ∉ seen) :
    remCost g seen = nodeCost nd + remCost g (i :: seen) := by
  have hmem : i ∈ (graphIds g).filter (fun j => j ∉ seen) := by
    simp only [Finset.mem_filter]
    exact ⟨lookupG_mem_ids g i nd h, h2⟩
  have hfe : (graphIds g).filter (fun j => j ∉ (i :: seen)) =
      ((graphIds g).filter (fun j => j ∉ seen)).erase i := by
    ext j
    simp only [Finset.mem_filter, Finset.mem_erase, List.mem_cons, not_or]
    constructor
    · rintro ⟨hj, hne, hns⟩
      exact ⟨hne, hj, hns⟩
    · rintro ⟨hne, hj, hns⟩
      exact ⟨hj, hne, hns⟩
  rw [remCost, remCost, hfe]
  have hsum : (((graphIds g).filter (fun j => j ∉ seen)).erase i).sum
        (idCost g) + idCost g i
      = ((graphIds g).filter (fun j => j ∉ seen)).sum (idCost g) :=
    Finset.sum_erase_add _ _ hmem
  have hic : idCost g i = nodeCost nd := by simp [idCost, h]
  omega

/-- With a budget of at least walkNeed, the walk never runs out of fuel:
each unseen node is paid for once, because a second encounter returns at
the visited-set check. -/
theorem walkSeq_enough_fuel (g : Graph) :
    ∀ (fuel : Nat) (cs : List (Option NodeId)) (seen : List NodeId),
      walkNeed g cs seen ≤ fuel →
      walkSeq g fuel cs seen ≠ .error .outOfFuel := by
  intro fuel
  induction fuel with
  | zero =>
    intro cs seen hn
    match cs with
    | [] => simp [walkSeq]
    | c :: cs =>
      exfalso
      rw [walkNeed] at hn
      simp only [List.length_cons] at hn
      omega
  | succ fuel ih =>
    intro cs seen hn
    match cs with
    | [] => simp [walkSeq]
    | none :: cs =>
      rw [show walkSeq g (fuel+1) (none :: cs) seen
          = walkSeq g fuel cs seen from rfl]
      refine ih cs seen ?_
      rw [walkNeed] at hn ⊢
      simp only [List.length_cons] at hn
      omega
    | some i :: cs =>
      simp only [walkSeq]
      by_cases hi : i ∈ seen
      · rw [if_pos hi]
        refine ih cs seen ?_
        rw [walkNeed] at hn ⊢
        simp only [List.length_cons] at hn
        omega
      · rw [if_neg hi]
        split
        · simp
        next nd hg =>
          by_cases hw : hasWalkRule nd
          · rw [if_pos hw]
            have hrem := remCost_cons g i nd seen hg hi
            have hnA : cs.length + 1 + remCost g seen ≤ fuel + 1 := by
              rw [walkNeed] at hn
              simpa using hn
            have hcost : nodeCost nd = 1 + (childSlots nd).length := rfl
            have hn1 : walkNeed g (childSlots nd) (i :: seen) ≤ fuel := by
              rw [walkNeed]
              omega
            split
            next e h1 =>
              have hne := ih (childSlots nd) (i :: seen) hn1
              rw [h1] at hne
              exact hne
            next tr1 s1 h1 =>
              have hs1 :=
                (walkSeq_ok_spec g fuel (childSlots nd) (i :: seen) tr1 s1 h1).1
              have hsub : ∀ j ∈ (i :: seen), j ∈ s1 := by
                intro j hj
                rw [hs1]
                simp [hj]
              have hmono := remCost_mono g (i :: seen) s1 hsub
              have hn2 : walkNeed g cs s1 ≤ fuel := by
                rw [walkNeed]
                omega
              split
              next e h2 =>
                have hne := ih cs s1 hn2
                rw [h2] at hne
                exact hne
              next tr2 s2 h2 =>
                simp
          · rw [if_neg hw]
            simp

/-! ## Claim C6: termination of Walk on every finite graph. -/

/-- C6: on any finite node graph, shared substructure and cycles included,
Walk needs no cycle-specific logic: a step budget of walkNeed (one unit
per worklist entry plus the cost of each unvisited bound node) is never
exhausted, because the visited-set check returns immediately on any node
descended into before, so each node is paid for at most once. -/
theorem walk_terminates (g : Graph) (r : NodeId) (fuel : Nat)
    (h : walkNeed g [some r] [] ≤ fuel) :
    WalkGo g fuel (some r) ≠ .error .outOfFuel :=
  walkSeq_enough_fuel g fuel [some r] [] h

/-- C6 witness: the two-node cyclic graph, walked to completion. -/
theorem walk_terminates_witness :
    WalkGo gCyc 20 (some 0) ≠ .error .outOfFuel :=
  walk_terminates gCyc 0 20 (by decide)

/-- Every entered id is reachable along walked child slots from one of the
worklist entries. -/
theorem walkSeq_sound (g : Graph) :
    ∀ (fuel : Nat) (cs : List (Option NodeId)) (seen : List NodeId)
      (tr : List Event) (s' : List NodeId),
      walkSeq g fuel cs seen = .ok (tr, s') →
      ∀ j ∈ entersOf tr, ∃ ci, some ci ∈ cs ∧ ReachG g ci j := by
  intro fuel
  induction fuel with
  | zero =>
    intro cs seen tr s' h
    match cs with
    | [] =>
      simp only [walkSeq, Except.ok.injEq, Prod.mk.injEq] at h
      obtain ⟨h1, h2⟩ := h
      subst h1
      subst h2
      simp
    | c :: cs =>
      simp only [walkSeq] at h
      exact absurd h (by simp)
  | succ fuel ih =>
    intro cs seen tr s' h
    match cs with
    | [] =>
      simp only [walkSeq, Except.ok.injEq, Prod.mk.injEq] at h
      obtain ⟨h1, h2⟩ := h
      subst h1
      subst h2
      simp
    | none :: cs =>
      rw [show walkSeq g (fuel+1) (none :: cs) seen
          = walkSeq g fuel cs seen from rfl] at h
      intro j hj
      obtain ⟨ci, hci, hre⟩ := ih cs seen tr s' h j hj
      exact ⟨ci, List.mem_cons_of_mem _ hci, hre⟩
    | some i :: cs =>
      simp only [walkSeq] at h
      by_cases hi : i ∈ seen
      · rw [if_pos hi] at h
        intro j hj
        obtain ⟨ci, hci, hre⟩ := ih cs seen tr s' h j hj
        exact ⟨ci, List.mem_cons_of_mem _ hci, hre⟩
      · rw [if_neg hi] at h
        split at h
        · exact absurd h (by simp)
        next nd hg =>
          split at h
          case isFalse => exact absurd h (by simp)
          case isTrue hw =>
            split at h
            · exact absurd h (by simp)
            next tr1 s1 h1 =>
              split at h
              · exact absurd h (by simp)
              next tr2 s2 h2 =>
                simp only [Except.ok.injEq, Prod.mk.injEq] at h
                obtain ⟨htr, hs⟩ := h
                subst htr
                subst hs
                intro j hj
                have hE : entersOf ((Event.enter i :: tr1 ++ [Event.leave i])
                    ++ tr2) = i :: (entersOf tr1 ++ entersOf tr2) := by simp
                rw [hE] at hj
                rcases List.mem_cons.mp hj with rfl | hj
                · exact ⟨j, List.mem_cons_self _ _, Relation.ReflTransGen.refl⟩
                rcases List.mem_append.mp hj with hj | hj
                · obtain ⟨ci, hci, hre⟩ :=
                    ih (childSlots nd) (i :: seen) tr1 s1 h1 j hj
                  refine ⟨i, List.mem_cons_self _ _, ?_⟩
                  exact Relation.ReflTransGen.head ⟨nd, hg, hci⟩ hre
                · obtain ⟨ci, hci, hre⟩ := ih cs s1 tr2 s2 h2 j hj
                  exact ⟨ci, List.mem_cons_of_mem _ hci, hre⟩

/-- In a successful walk, every non-nil worklist entry ends up in the final
visited set. -/
theorem walkSeq_child_mem (g : Graph) :
    ∀ (fuel : Nat) (cs : List (Option NodeId)) (seen : List NodeId)
      (tr : List Event) (s' : List NodeId),
      walkSeq g fuel cs seen = .ok (tr, s') →
      ∀ ci, some ci ∈ cs → ci ∈ s' := by
  intro fuel
  induction fuel with
  | zero =>
    intro cs seen tr s' h
    match cs with
    | [] =>
      intro ci hci
      simp at hci
    | c :: cs =>
      simp only [walkSeq] at h
      exact absurd h (by simp)
  | succ fuel ih =>
    intro cs seen tr s' h
    match cs with
    | [] =>
      intro ci hci
      simp at hci
    | none :: cs =>
      rw [show walkSeq g (fuel+1) (none :: cs) seen
          = walkSeq g fuel cs seen from rfl] at h
      intro ci hci
      rcases List.mem_cons.mp hci with hci | hci
      · exact absurd hci (by simp)
      · exact ih cs seen tr s' h ci hci
    | some i :: cs =>
      simp only [walkSeq] at h
      by_cases hi : i ∈ seen
      · rw [if_pos hi] at h
        intro ci hci
        rcases List.mem_cons.mp hci with hci | hci
        · have hcieq : ci = i := by simpa using hci
          subst hcieq
          have hs := (walkSeq_ok_spec g fuel cs seen tr s' h).1
          rw [hs]
          simp [hi]
        · exact ih cs seen tr s' h ci hci
      · rw [if_neg hi] at h
        split at h
        · exact absurd h (by simp)
        next nd hg =>
          split at h
          case isFalse => exact absurd h (by simp)
          case isTrue hw =>
            split at h
            · exact absurd h (by simp)
            next tr1 s1 h1 =>
              split at h
              · exact absurd h (by simp)
              next tr2 s2 h2 =>
                simp only [Except.ok.injEq, Prod.mk.injEq] at h
                obtain ⟨htr, hs⟩ := h
                subst htr
                subst hs
                have hs1 :=
                  (walkSeq_ok_spec g fuel (childSlots nd) (i :: seen)
                    tr1 s1 h1).1
                have hs2 := (walkSeq_ok_spec g fuel cs s1 tr2 s2 h2).1
                have hsub12 : ∀ x ∈ s1, x ∈ s2 := by
                  intro x hx
                  rw [hs2]
                  simp [hx]
                intro ci hci
                rcases List.mem_cons.mp hci with hci | hci
                · have hcieq : ci = i := by simpa using hci
                  subst hcieq
                  apply hsub12
                  rw [hs1]
                  simp
                · exact ih cs s1 tr2 s2 h2 ci hci

/-- The final visited set of a successful walk is closed under walked child
slots, for every node it visited itself (as opposed to those already seen
at the start). -/
theorem walkSeq_closed (g : Graph) :
    ∀ (fuel : Nat) (cs : List (Option NodeId)) (seen : List NodeId)
      (tr : List Event) (s' : List NodeId),
      walkSeq g fuel cs seen = .ok (tr, s') →
      ∀ x ∈ s', x ∉ seen → ∀ j, stepG g x j → j ∈ s' := by
  intro fuel
  induction fuel with
  | zero =>
    intro cs seen tr s' h
    match cs with
    | [] =>
      simp only [walkSeq, Except.ok.injEq, Prod.mk.injEq] at h
      obtain ⟨h1, h2⟩ := h
      subst h1
      subst h2
      intro x hx hnx
      exact absurd hx hnx
    | c :: cs =>
      simp only [walkSeq] at h
      exact absurd h (by simp)
  | succ fuel ih =>
    intro cs seen tr s' h
    match cs with
    | [] =>
      simp only [walkSeq, Except.ok.injEq, Prod.mk.injEq] at h
      obtain ⟨h1, h2⟩ := h
      subst h1
      subst h2
      intro x hx hnx
      exact absurd hx hnx
    | none :: cs =>
      rw [show walkSeq g (fuel+1) (none :: cs) seen
          = walkSeq g fuel cs seen from rfl] at h
      exact ih cs seen tr s' h
    | some i :: cs =>
      simp only [walkSeq] at h
      by_cases hi : i ∈ seen
      · rw [if_pos hi] at h
        exact ih cs seen tr s' h
      · rw [if_neg hi] at h
        split at h
        · exact absurd h (by simp)
        next nd hg =>
          split at h
          case isFalse => exact absurd h (by simp)
          case isTrue hw =>
            split at h
            · exact absurd h (by simp)
            next tr1 s1 h1 =>
              split at h
              · exact absurd h (by simp)
              next tr2 s2 h2 =>
                simp only [Except.ok.injEq, Prod.mk.injEq] at h
                obtain ⟨htr, hs⟩ := h
                subst htr
                subst hs
                have hs2 := (walkSeq_ok_spec g fuel cs s1 tr2 s2 h2).1
                have hsub12 : ∀ x ∈ s1, x ∈ s2 := by
                  intro x hx
                  rw [hs2]
                  simp [hx]
                intro x hx hnx j hst
                by_cases hxs1 : x ∈ s1
                · by_cases hxis : x ∈ i :: seen
                  · have hxi : x = i := by
                      rcases List.mem_cons.mp hxis with h' | h'
                      · exact h'
                      · exact absurd h' hnx
                    obtain ⟨nd', hnd', hslots⟩ := hst
                    rw [hxi, hg] at hnd'
                    have hx' : nd = nd' := by injection hnd'
                    rw [← hx'] at hslots
                    exact hsub12 _
                      (walkSeq_child_mem g fuel (childSlots nd) (i :: seen)
                        tr1 s1 h1 j hslots)
                  · exact hsub12 _
                      (ih (childSlots nd) (i :: seen) tr1 s1 h1 x hxs1 hxis
                        j hst)
                · exact ih cs s1 tr2 s2 h2 x hx hxs1 j hst

/-- Every node reachable from the root along walked child slots is entered
by a successful walk. -/
theorem walkSeq_complete (g : Graph) (fuel : Nat) (r : NodeId)
    (tr : List Event) (s' : List NodeId)
    (h : walkSeq g fuel [some r] [] = .ok (tr, s')) :
    ∀ j, ReachG g r j → j ∈ entersOf tr := by
  have hs' : s' = (entersOf tr).reverse := by
    simpa using (walkSeq_ok_spec g fuel [some r] [] tr s' h).1
  have hr : r ∈ s' :=
    walkSeq_child_mem g fuel [some r] [] tr s' h r (by simp)
  have hcl := walkSeq_closed g fuel [some r] [] tr s' h
  intro j hreach
  have hjs : j ∈ s' := by
    induction hreach with
    | refl => exact hr
    | tail hab hbc ihab => exact hcl _ ihab (by simp) _ hbc
  rw [hs'] at hjs
  simpa using hjs

/-! ## Claim C1: single visitation. -/

/-- C1: for a completed Walk from a root over any finite graph (shared
substructure and cycles included), the before callback fires at most once
per node identity; the after callback fires exactly as often per node as
the before callback; a node is entered exactly when it is reachable from
the root along the walked child slots; and for every reachable node the
count is exactly one.  Preorder's f receives exactly the enter events and
Postorder's f exactly the leave events, so each invokes f exactly once per
distinct reachable node. -/
theorem walk_single_visit (g : Graph) (fuel : Nat) (r : NodeId)
    (tr : List Event) (s' : List NodeId)
    (h : WalkGo g fuel (some r) = .ok (tr, s')) :
    (∀ j, (entersOf tr).count j ≤ 1) ∧
    (∀ j, (leavesOf tr).count j = (entersOf tr).count j) ∧
    (∀ j, j ∈ entersOf tr ↔ ReachG g r j) ∧
    (∀ j, ReachG g r j → (entersOf tr).count j = 1) := by
  have h' : walkSeq g fuel [some r] [] = .ok (tr, s') := h
  have hspec := walkSeq_ok_spec g fuel [some r] [] tr s' h'
  have hsound := walkSeq_sound g fuel [some r] [] tr s' h'
  have hcomp := walkSeq_complete g fuel r tr s' h'
  have hcount : ∀ j, (entersOf tr).count j ≤ 1 :=
    List.nodup_iff_count_le_one.mp hspec.2.1
  have hiff : ∀ j, j ∈ entersOf tr ↔ ReachG g r j := by
    intro j
    constructor
    · intro hj
      obtain ⟨ci, hci, hre⟩ := hsound j hj
      have hcir : ci = r := by simpa using hci
      exact hcir ▸ hre
    · exact hcomp j
  refine ⟨hcount, ?_, hiff, ?_⟩
  · intro j
    exact hspec.2.2.2.count_eq j
  · intro j hre
    have hpos : 0 < (entersOf tr).count j :=
      List.count_pos_iff.mpr ((hiff j).mpr hre)
    have hle := hcount j
    omega

/-- C1 witness: in the diamond graph the shared node 3, reachable along
two different paths, is entered exactly once. -/
theorem walk_single_visit_witness :
    (entersOf [Event.enter 0, Event.enter 1, Event.enter 3, Event.leave 3,
      Event.leave 1, Event.enter 2, Event.leave 2,
      Event.leave 0]).count 3 = 1 := by
  have hstep01 : stepG gDiamond 0 1 := ⟨dN0, rfl, by decide⟩
  have hstep13 : stepG gDiamond 1 3 := ⟨dN1, rfl, by decide⟩
  have hreach : ReachG gDiamond 0 3 :=
    Relation.ReflTransGen.head hstep01
      (Relation.ReflTransGen.single hstep13)
  exact (walk_single_visit gDiamond 20 0
    [Event.enter 0, Event.enter 1, Event.enter 3, Event.leave 3,
      Event.leave 1, Event.enter 2, Event.leave 2, Event.leave 0]
    [2, 3, 1, 0] rfl).2.2.2 3 hreach

/-- Decode inverts encode, at the depth budget depthE computes. -/
theorem decode_encode (n : AstExpr) :
    decodeExprF (depthE n) (encodeExpr n) = .ok n := by
  induction n with
  | castExpr id op ty ex ihex =>
    simp [encodeExpr, depthE, decodeExprF, decodeStep, jfind, decodeType,
      encodeType, ihex]
  | nameExpr id nm =>
    show decodeStep (decodeExprF 0) (encodeExpr (.nameExpr id nm)) =
      .ok (.nameExpr id nm)
    simp [encodeExpr, decodeStep, jfind]

/-! ## Claim C7: codec round-trip for CastExpr. -/

/-- C7: decoding the encoding of any well-formed CastExpr node of the codec
family reconstructs it exactly: encode writes the discriminant "CastExpr"
into the record's kind field, and decode returns a node equal to the
original field by field, the nested type and operand expression records
included (a fresh value, equal by structure).  (The decoder and the operand
node kinds are spec-modelled; their Go source is not under src/.) -/
theorem castExpr_roundtrip (id op : Int) (ty : AstType) (ex : AstExpr) :
    decodeExprF (depthE (.castExpr id op ty ex))
        (encodeExpr (.castExpr id op ty ex)) = .ok (.castExpr id op ty ex) ∧
      encodeExpr (.castExpr id op ty ex) =
        .jobj [("kind", JVal.jstr "CastExpr"), ("id", JVal.jnum id),
          ("op", JVal.jnum op), ("type", encodeType ty),
          ("expr", encodeExpr ex)] ∧
      jfind [("kind", JVal.jstr "CastExpr"), ("id", JVal.jnum id),
        ("op", JVal.jnum op), ("type", encodeType ty),
        ("expr", encodeExpr ex)] "kind" = some (.jstr "CastExpr") :=
  ⟨decode_encode _, rfl, rfl⟩

/-! ## Claim C8: rejection of malformed codec records. -/

/-- C8: the decoder is a total function into a result type, so no input
crashes it, and it rejects malformed records with a FormatError returned
to the caller: an unrecognized discriminant yields unknownKind, a record
with no discriminant yields missingField, and a recognized kind whose
required id field is absent yields missingField.  (The decoder is
spec-modelled; its Go source is not under src/.) -/
theorem decode_rejects_malformed :
    (∀ (fuel : Nat) (fs : List (String × JVal)) (s : String),
      jfind fs "kind" = some (.jstr s) → s ≠ "CastExpr" → s ≠ "Name" →
      decodeExprF (fuel+1) (.jobj fs) = .error (.unknownKind s)) ∧
    (∀ (fuel : Nat) (fs : List (String × JVal)),
      jfind fs "kind" = none →
      decodeExprF (fuel+1) (.jobj fs) = .error (.missingField "kind")) ∧
    (∀ (fuel : Nat) (fs : List (String × JVal)),
      jfind fs "kind" = some (.jstr "Name") → jfind fs "id" = none →
      decodeExprF (fuel+1) (.jobj fs) = .error (.missingField "Name")) := by
  refine ⟨?_, ?_, ?_⟩
  · intro fuel fs s hk h1 h2
    simp [decodeExprF, decodeStep, hk, h1, h2]
  · intro fuel fs hk
    simp [decodeExprF, decodeStep, hk]
  · intro fuel fs hk hid
    simp [decodeExprF, decodeStep, hk, hid]

/-- C8 witness: the record with discriminant BogusExpr is rejected with a
FormatError and decoding returns normally. -/
theorem decode_rejects_malformed_witness :
    decodeExprF 5 bogusRecord = .error (.unknownKind "BogusExpr") :=
  decode_rejects_malformed.1 4
    [("kind", JVal.jstr "BogusExpr"), ("id", JVal.jnum 7)] "BogusExpr"
    rfl (by decide) (by decide)

end Castdiff
